import Mathlib

set_option linter.unusedVariables false

/-!
Shallow embedding of the Aquarium puzzle solver from `src/main.rs`.

The Rust program models a rectangular grid of cells (row-major `Vec<Cell>`),
each cell holding a `CellState` and a partition (aquarium) id, together with
per-row and per-column hints (`isize`).  Machine integers (`isize`) are
embedded as `Int`; `usize` indices as `Nat`; fallible operations (`unwrap`,
slice indexing, `usize::try_from`) as `Option`.  The HashMap iteration order
over a column's partitions — unspecified in Rust — is determinized to
first-appearance order scanning the column top to bottom (`dedupFirst`).
-/

/-- `CellState` from the source: Empty, Flooded, Invalid. -/
inductive CellState where
  | Empty
  | Flooded
  | Invalid
deriving DecidableEq, Repr

/-- `Cell`: a state and the id of the aquarium partition the cell belongs to. -/
structure Cell where
  state : CellState
  partition : Int
deriving DecidableEq, Repr

/-- `Board`: width x height cells in row-major order, plus row/column hints. -/
structure Board where
  width : Nat
  height : Nat
  cells : List Cell
  row_hints : List Int
  col_hints : List Int
deriving DecidableEq, Repr

/-- The well-formedness the Rust constructors establish: the cell vector has
exactly `width * height` entries and the hint vectors match the dimensions. -/
def WFb (b : Board) : Prop :=
  b.cells.length = b.width * b.height ∧
  b.row_hints.length = b.height ∧
  b.col_hints.length = b.width

instance (b : Board) : Decidable (WFb b) := by
  unfold WFb; infer_instance

/-- `Board::cell_at`: read the cell at column `ix`, row `iy` (row-major). -/
def cellAt (b : Board) (ix iy : Nat) : Cell :=
  b.cells.getD (iy * b.width + ix) ⟨CellState.Empty, -1⟩

/-- `Board::cell_state_at`. -/
def stateAt (b : Board) (ix iy : Nat) : CellState :=
  (cellAt b ix iy).state

/-- `Board::partition_at`. -/
def partitionAt (b : Board) (ix iy : Nat) : Int :=
  (cellAt b ix iy).partition

/-- All cells still Empty (the solver's start state, as built by `make_b0`). -/
def AllEmpty (b : Board) : Prop :=
  ∀ c ∈ b.cells, c.state = CellState.Empty

instance (b : Board) : Decidable (AllEmpty b) :=
  List.decidableBAll _ _

/-- Apply `f` to every cell together with its flat (row-major) index,
starting at index `i`.  This is how `flood`/`invalidate` traverse the grid. -/
def mapCells (f : Nat → Cell → Cell) : Nat → List Cell → List Cell
  | _, [] => []
  | i, c :: cs => f i c :: mapCells f (i + 1) cs

/-- `Board::flood(ix, iy)`: set every cell whose partition equals
`partition_at(ix, iy)` and whose row is `>= iy` to Flooded.  The Rust loops
over rows `iy..height` and columns `0..width`; on a well-formed board this is
exactly the cells whose flat index `i` satisfies `iy <= i / width`. -/
def flood (b : Board) (ix iy : Nat) : Board :=
  let p := partitionAt b ix iy
  let f : Nat → Cell → Cell := fun i c =>
    if iy ≤ i / b.width ∧ c.partition = p then { c with state := CellState.Flooded } else c
  { b with cells := mapCells f 0 b.cells }

/-- `Board::invalidate(ix, iy)`: set every cell whose partition equals
`partition_at(ix, iy)` and whose row is `<= iy` to Invalid (Rust loops over
rows `0..iy+1`). -/
def invalidate (b : Board) (ix iy : Nat) : Board :=
  let p := partitionAt b ix iy
  let f : Nat → Cell → Cell := fun i c =>
    if i / b.width ≤ iy ∧ c.partition = p then { c with state := CellState.Invalid } else c
  { b with cells := mapCells f 0 b.cells }

/-- Keep the first occurrence of each value, dropping later duplicates.
Used to determinize the iteration over a HashMap's keys (Rust leaves that
order unspecified): we iterate keys in first-appearance order. -/
def dedupFirst : List Int → List Int
  | [] => []
  | x :: xs => x :: (dedupFirst xs).filter (fun y => y ≠ x)

/-- Size of partition `p` inside row `iy` (an entry of the `row_partitions`
map built at the top of `Board::solve`; partition ids are never mutated, so
recomputing it on the current board equals the precomputed map). -/
def rowPartSize (b : Board) (iy : Nat) (p : Int) : Int :=
  Int.ofNat ((List.range b.width).filter (fun ix => partitionAt b ix iy = p)).length

/-- `Board::row_partition_states`: the state recorded for partition `p` in
row `iy` is the state of its first (leftmost) cell in that row
(`entry(..).or_insert(cell.state)` keeps the first insertion). -/
def rowPartState (b : Board) (iy : Nat) (p : Int) : Option CellState :=
  ((List.range b.width).find? (fun ix => partitionAt b ix iy = p)).map
    (fun ix => stateAt b ix iy)

/-- The distinct partition ids present in row `iy`, in first-appearance
order (HashMap key iteration, determinized). -/
def rowParts (b : Board) (iy : Nat) : List Int :=
  dedupFirst ((List.range b.width).map (fun ix => partitionAt b ix iy))

/-- The `row_state_counts` closure of `Board::solve`: for state `s`, the sum
of the sizes of the row's partitions whose recorded state is `s`. -/
def rowStateCount (b : Board) (iy : Nat) (s : CellState) : Int :=
  (((rowParts b iy).filter (fun p => rowPartState b iy p = some s)).map
    (fun p => rowPartSize b iy p)).sum

/-- Whether the key `CellState::Empty` is present in the row's state-totals
map (rule R2 indexes that map with `map_totals[&CellState::Empty]`, which
panics when the key is absent). -/
def rowHasEmptyKey (b : Board) (iy : Nat) : Bool :=
  (rowParts b iy).any (fun p => rowPartState b iy p = some CellState.Empty)

/-- `remainder` of a row pass: `row_hints[iy] - map_totals.get(&Flooded).unwrap_or(&0)`. -/
def rowRemainder (b : Board) (iy : Nat) : Int :=
  b.row_hints.getD iy 0 - rowStateCount b iy CellState.Flooded

/-- One step of rule R1 (row invalidate) at column `ix` of row `iy`.  The
sizes and the remainder are the ones computed at row entry (board `b`);
the Empty test reads the current board `acc.1`. -/
def r1step (b : Board) (iy : Nat) (acc : Board × Bool) (ix : Nat) : Board × Bool :=
  let c := cellAt acc.1 ix iy
  if c.state = CellState.Empty then
    if rowRemainder b iy < rowPartSize b iy c.partition
    then (invalidate acc.1 ix iy, true)
    else acc
  else acc

/-- Rule R1 over one row: fold the step over columns `0..width`. -/
def r1Row (b : Board) (iy : Nat) : Board × Bool :=
  (List.range b.width).foldl (r1step b iy) (b, false)

/-- The R1 pass: rows in reverse order (`(0..height).rev()`), accumulating
the `updated` flag. -/
def r1Pass (b : Board) : Board × Bool :=
  (List.range b.height).reverse.foldl
    (fun acc iy =>
      let r := r1Row acc.1 iy
      (r.1, acc.2 || r.2))
    (b, false)

/-- One step of rule R2 (row flood) at column `ix` of row `iy`: on an Empty
cell, flood when `map_totals[&Empty] - map_sizes[&partition] < remainder`
(all computed at row entry, board `b`); `none` models the panic of
`map_totals[&CellState::Empty]` when the key is absent. -/
def r2step (b : Board) (iy : Nat) (acc : Board × Bool) (ix : Nat) : Option (Board × Bool) :=
  let c := cellAt acc.1 ix iy
  if c.state = CellState.Empty then
    if rowHasEmptyKey b iy then
      if rowStateCount b iy CellState.Empty - rowPartSize b iy c.partition < rowRemainder b iy
      then some (flood acc.1 ix iy, true)
      else some acc
    else none
  else some acc

/-- Rule R2 over one row. -/
def r2Row (b : Board) (iy : Nat) : Option (Board × Bool) :=
  (List.range b.width).foldlM (r2step b iy) (b, false)

/-- Rule R2 over the first `k` columns of row `iy` (used to talk about the
state "at the moment cell `k` is examined"). -/
def r2Upto (b : Board) (iy k : Nat) : Option (Board × Bool) :=
  (List.range k).foldlM (r2step b iy) (b, false)

/-- The R2 pass: rows in forward order. -/
def r2Pass (b : Board) : Option (Board × Bool) :=
  (List.range b.height).foldlM
    (fun acc iy => do
      let r ← r2Row acc.1 iy
      pure (r.1, acc.2 || r.2))
    (b, false)

/-- The rows (sorted ascending by construction) at which partition `p`
appears in column `ix`: an entry of the `col_partitions` map of
`Board::solve` (built by scanning rows `0`, then `1..height`, in order). -/
def colPartRows (b : Board) (ix : Nat) (p : Int) : List Nat :=
  (List.range b.height).filter (fun iy => partitionAt b ix iy = p)

/-- The distinct partitions present in column `ix`, in first-appearance
(top-to-bottom) order. -/
def colParts (b : Board) (ix : Nat) : List Int :=
  dedupFirst ((List.range b.height).map (fun iy => partitionAt b ix iy))

/-- Number of cells of partition `p` in column `ix` currently in state `s`
(the per-partition `map_state_totals` built at column entry). -/
def colPartStateCount (b : Board) (ix : Nat) (p : Int) (s : CellState) : Int :=
  Int.ofNat ((List.range b.height).filter
    (fun iy => partitionAt b ix iy = p ∧ stateAt b ix iy = s)).length

/-- Number of Flooded cells in column `ix` (the `col_count` of the column
pass, and the per-column count of `is_solved`). -/
def colFloodedCount (b : Board) (ix : Nat) : Int :=
  Int.ofNat ((List.range b.height).filter
    (fun iy => stateAt b ix iy = CellState.Flooded)).length

/-- `remainder` of the column pass: `col_hints[ix] - col_count`. -/
def colRemainder (b : Board) (ix : Nat) : Int :=
  b.col_hints.getD ix 0 - colFloodedCount b ix

/-- Rule R3 (column invalidate) for partition `p` of column `ix`.  All
counts come from the board `b` at column entry; the mutation applies to the
current board `bd`.  `none` models the panics: `usize::try_from` on a
negative index and `iy_list[..]` out of bounds. -/
def colPartR3 (b : Board) (ix : Nat) (rem : Int) (p : Int) (bd : Board) :
    Option (Board × Bool) :=
  let e := colPartStateCount b ix p CellState.Empty
  let i := colPartStateCount b ix p CellState.Invalid
  let extra := e - rem
  if 0 < extra then
    let idx := i + extra - 1
    if idx < 0 then none
    else
      match (colPartRows b ix p).get? idx.toNat with
      | none => none
      | some iy => some (invalidate bd ix iy, true)
  else some (bd, false)

/-- Rule R4 (column flood) for partition `p` of column `ix`; `other_empty`
sums the Empty counts of every other partition of the column. -/
def colPartR4 (b : Board) (ix : Nat) (rem : Int) (p : Int) (bd : Board) :
    Option (Board × Bool) :=
  let e := colPartStateCount b ix p CellState.Empty
  let i := colPartStateCount b ix p CellState.Invalid
  let otherEmpty := (((colParts b ix).filter (fun q => q ≠ p)).map
    (fun q => colPartStateCount b ix q CellState.Empty)).sum
  let required := rem - otherEmpty
  if 0 < required then
    let fIdx := i + (e - required)
    if fIdx < 0 then none
    else
      match (colPartRows b ix p).get? fIdx.toNat with
      | none => none
      | some iy => some (flood bd ix iy, true)
  else some (bd, false)

/-- The body of the per-partition loop of the column pass: R3 then R4. -/
def colPartStep (b : Board) (ix : Nat) (rem : Int) (acc : Board × Bool) (p : Int) :
    Option (Board × Bool) := do
  let r3 ← colPartR3 b ix rem p acc.1
  let r4 ← colPartR4 b ix rem p r3.1
  pure (r4.1, acc.2 || r3.2 || r4.2)

/-- The column pass for column `ix`: counts and remainder computed at column
entry, then the partition loop. -/
def colPass (b : Board) (ix : Nat) : Option (Board × Bool) :=
  (colParts b ix).foldlM (colPartStep b ix (colRemainder b ix)) (b, false)

/-- All columns, in order `0..width`. -/
def colsPass (b : Board) : Option (Board × Bool) :=
  (List.range b.width).foldlM
    (fun acc ix => do
      let r ← colPass acc.1 ix
      pure (r.1, acc.2 || r.2))
    (b, false)

/-- One iteration of the `loop` in `Board::solve`: the R1 pass (rows in
reverse), the R2 pass (rows forward), then the column pass; the Bool is the
`updated` flag. -/
def solveRound (b : Board) : Option (Board × Bool) := do
  let a := r1Pass b
  let r2 ← r2Pass a.1
  let c ← colsPass r2.1
  pure (c.1, a.2 || r2.2 || c.2)

/-- `Board::solve`, with explicit fuel: repeat rounds until one reports
`updated = false` (quiescence).  `none` means a panic occurred or the fuel
ran out with rounds still firing (the Rust loop itself is unbounded). -/
def solveGo : Nat → Board → Option Board
  | 0, _ => none
  | n + 1, b =>
    match solveRound b with
    | none => none
    | some (b2, true) => solveGo n b2
    | some (b2, false) => some b2

/-- The board after exactly `n` rounds (ignoring the `updated` flags). -/
def iterRounds : Nat → Board → Option Board
  | 0, b => some b
  | n + 1, b =>
    match solveRound b with
    | none => none
    | some (b2, _) => iterRounds n b2

/-- Number of Flooded cells in row `iy` (used by `is_solved`). -/
def rowCellCount (b : Board) (iy : Nat) (s : CellState) : Int :=
  Int.ofNat ((List.range b.width).filter (fun ix => stateAt b ix iy = s)).length

/-- `Board::is_solved`: every row's and every column's Flooded count equals
its hint. -/
def isSolved (b : Board) : Bool :=
  ((List.range b.height).all
    (fun iy => rowCellCount b iy CellState.Flooded = b.row_hints.getD iy 0)) &&
  ((List.range b.width).all
    (fun ix => colFloodedCount b ix = b.col_hints.getD ix 0))

/-- `Board::make_b0`: the 6x6 sample puzzle hardcoded in the source. -/
def make_b0 : Board :=
  { width := 6
    height := 6
    cells := [0, 0, 0, 0, 1, 1,
              0, 0, 2, 2, 1, 1,
              3, 0, 3, 2, 4, 5,
              3, 3, 3, 2, 4, 5,
              3, 3, 3, 3, 3, 5,
              3, 3, 5, 5, 5, 5].map (fun p => ⟨CellState.Empty, p⟩)
    row_hints := [2, 4, 3, 2, 1, 4]
    col_hints := [1, 2, 1, 3, 5, 4] }



/-- The expected result of running `solve` on `make_b0` (the fully determined
solution; equal to `make_b0_solved` in the source). -/
def b0Final : Board :=
  { width := 6
    height := 6
    cells :=
      (([0, 0, 0, 0, 1, 1,
         0, 0, 2, 2, 1, 1,
         3, 0, 3, 2, 4, 5,
         3, 3, 3, 2, 4, 5,
         3, 3, 3, 3, 3, 5,
         3, 3, 5, 5, 5, 5] : List Int).zip
       [CellState.Invalid, CellState.Invalid, CellState.Invalid, CellState.Invalid,
          CellState.Flooded, CellState.Flooded,
        CellState.Flooded, CellState.Flooded, CellState.Invalid, CellState.Invalid,
          CellState.Flooded, CellState.Flooded,
        CellState.Invalid, CellState.Flooded, CellState.Invalid, CellState.Flooded,
          CellState.Flooded, CellState.Invalid,
        CellState.Invalid, CellState.Invalid, CellState.Invalid, CellState.Flooded,
          CellState.Flooded, CellState.Invalid,
        CellState.Invalid, CellState.Invalid, CellState.Invalid, CellState.Invalid,
          CellState.Invalid, CellState.Flooded,
        CellState.Invalid, CellState.Invalid, CellState.Flooded, CellState.Flooded,
          CellState.Flooded, CellState.Flooded]).map
        (fun pc => ⟨pc.2, pc.1⟩)
    row_hints := [2, 4, 3, 2, 1, 4]
    col_hints := [1, 2, 1, 3, 5, 4] }

/-- A well-formed 3x3 board (two aquariums: columns 0-1 and column 2) whose
hints make the solver loop forever: column 0 gets overflooded by a row flood,
R3 then re-invalidates the partition and R4 re-floods it, every round. -/
def c4osc : Board :=
  { width := 3, height := 3
    cells := [0, 0, 1, 0, 0, 1, 0, 0, 1].map (fun p => ⟨CellState.Empty, p⟩)
    row_hints := [2, 2, 2]
    col_hints := [0, 3, 3] }

/-- The all-Flooded state the looping run of `c4osc` keeps revisiting. -/
def c4oscLoop : Board :=
  { width := 3, height := 3
    cells := [0, 0, 1, 0, 0, 1, 0, 0, 1].map (fun p => ⟨CellState.Flooded, p⟩)
    row_hints := [2, 2, 2]
    col_hints := [0, 3, 3] }

/-- A 1x1 board with inconsistent hints (row wants 0 Flooded, column wants 1):
R1 invalidates the cell, then R4 floods it again inside the same round. -/
def c3bad : Board :=
  { width := 1, height := 1, cells := [⟨CellState.Empty, 0⟩]
    row_hints := [0], col_hints := [1] }

/-- The state of `c3bad` after its R1 pass: the single cell is Invalid. -/
def c3mid : Board :=
  { width := 1, height := 1, cells := [⟨CellState.Invalid, 0⟩]
    row_hints := [0], col_hints := [1] }

/-- A well-formed 1x1 board on which `solve` panics: R2 floods the cell, the
column pass then computes `flood_cell_idx = 0 + (0 - 1) = -1` and
`usize::try_from(-1)` fails. -/
def c10bad : Board :=
  { width := 1, height := 1, cells := [⟨CellState.Empty, 0⟩]
    row_hints := [1], col_hints := [2] }

/-- A tiny consistent board used as concrete input by witnesses. -/
def tinyB : Board :=
  { width := 1, height := 1, cells := [⟨CellState.Empty, 0⟩]
    row_hints := [0], col_hints := [0] }

/-- A tiny consistent board whose single cell must be flooded. -/
def tinyB1 : Board :=
  { width := 1, height := 1, cells := [⟨CellState.Empty, 0⟩]
    row_hints := [1], col_hints := [1] }

/-- Invariant (a): within any one row, all cells of the same partition have
the same state. -/
def RowUniform (b : Board) : Prop :=
  ∀ iy, iy < b.height → ∀ ix1, ix1 < b.width → ∀ ix2, ix2 < b.width →
    partitionAt b ix1 iy = partitionAt b ix2 iy →
    stateAt b ix1 iy = stateAt b ix2 iy

/-- Invariant (b): if a cell of a partition is Invalid, every cell of that
partition in the same or a higher row is Invalid (Invalid rows are a prefix
from the top). -/
def InvalidUp (b : Board) : Prop :=
  ∀ ix1, ix1 < b.width → ∀ iy1, iy1 < b.height →
  ∀ ix2, ix2 < b.width → ∀ iy2, iy2 < b.height →
    iy1 ≤ iy2 → partitionAt b ix1 iy1 = partitionAt b ix2 iy2 →
    stateAt b ix2 iy2 = CellState.Invalid → stateAt b ix1 iy1 = CellState.Invalid

/-- Invariant (c): if a cell of a partition is Flooded, every cell of that
partition in the same or a lower row is Flooded (Flooded rows are a suffix
from the bottom). -/
def FloodedDown (b : Board) : Prop :=
  ∀ ix1, ix1 < b.width → ∀ iy1, iy1 < b.height →
  ∀ ix2, ix2 < b.width → ∀ iy2, iy2 < b.height →
    iy1 ≤ iy2 → partitionAt b ix1 iy1 = partitionAt b ix2 iy2 →
    stateAt b ix1 iy1 = CellState.Flooded → stateAt b ix2 iy2 = CellState.Flooded

/-- The three partition invariants together (the puzzle's physics). -/
def BoardInv (b : Board) : Prop :=
  RowUniform b ∧ InvalidUp b ∧ FloodedDown b

instance (b : Board) : Decidable (RowUniform b) := by
  unfold RowUniform; infer_instance

set_option synthInstance.maxSize 512 in
instance (b : Board) : Decidable (InvalidUp b) := by
  unfold InvalidUp; infer_instance

set_option synthInstance.maxSize 512 in
instance (b : Board) : Decidable (FloodedDown b) := by
  unfold FloodedDown; infer_instance

instance (b : Board) : Decidable (BoardInv b) := by
  unfold BoardInv; infer_instance

/-- Board states reachable through the engine's only mutators: any sequence
of `flood` / `invalidate` calls (the engine touches the grid exclusively
through these two primitives). -/
inductive Reaches : Board → Board → Prop
  | refl (b : Board) : Reaches b b
  | flood (b b2 : Board) (ix iy : Nat) : Reaches b b2 → Reaches b (flood b2 ix iy)
  | invalidate (b b2 : Board) (ix iy : Nat) : Reaches b b2 → Reaches b (invalidate b2 ix iy)


/-! Basic lemmas about the grid primitives. -/

theorem length_mapCells (f : Nat → Cell → Cell) :
    ∀ (i : Nat) (l : List Cell), (mapCells f i l).length = l.length := by
  intro i l
  induction l generalizing i with
  | nil => rfl
  | cons c cs ih => simp [mapCells, ih]

theorem getD_mapCells (f : Nat → Cell → Cell) :
    ∀ (l : List Cell) (i n : Nat) (d : Cell), n < l.length →
      (mapCells f i l).getD n d = f (i + n) (l.getD n d) := by
  intro l
  induction l with
  | nil => intro i n d h; simp at h
  | cons c cs ih =>
    intro i n d h
    cases n with
    | zero => simp [mapCells]
    | succ m =>
      simp only [mapCells, List.getD_cons_succ]
      rw [ih (i + 1) m d (by simpa using Nat.lt_of_succ_lt_succ h)]
      ring_nf

theorem flood_width (b : Board) (x y : Nat) : (flood b x y).width = b.width := rfl
theorem flood_height (b : Board) (x y : Nat) : (flood b x y).height = b.height := rfl
theorem flood_row_hints (b : Board) (x y : Nat) : (flood b x y).row_hints = b.row_hints := rfl
theorem flood_col_hints (b : Board) (x y : Nat) : (flood b x y).col_hints = b.col_hints := rfl
theorem invalidate_width (b : Board) (x y : Nat) : (invalidate b x y).width = b.width := rfl
theorem invalidate_height (b : Board) (x y : Nat) : (invalidate b x y).height = b.height := rfl
theorem invalidate_row_hints (b : Board) (x y : Nat) :
    (invalidate b x y).row_hints = b.row_hints := rfl
theorem invalidate_col_hints (b : Board) (x y : Nat) :
    (invalidate b x y).col_hints = b.col_hints := rfl

theorem WFb_flood (b : Board) (x y : Nat) (h : WFb b) : WFb (flood b x y) := by
  obtain ⟨h1, h2, h3⟩ := h
  exact ⟨by simpa [flood, length_mapCells] using h1, h2, h3⟩

theorem WFb_invalidate (b : Board) (x y : Nat) (h : WFb b) : WFb (invalidate b x y) := by
  obtain ⟨h1, h2, h3⟩ := h
  exact ⟨by simpa [invalidate, length_mapCells] using h1, h2, h3⟩

theorem getD_mapCells0 (f : Nat → Cell → Cell) (l : List Cell) (n : Nat) (d : Cell)
    (h : n < l.length) : (mapCells f 0 l).getD n d = f n (l.getD n d) := by
  rw [getD_mapCells f l 0 n d h, Nat.zero_add]

theorem getD_mapCells_oob (f : Nat → Cell → Cell) (l : List Cell) (n : Nat) (d : Cell)
    (h : l.length ≤ n) : (mapCells f 0 l).getD n d = d :=
  List.getD_eq_default _ _ (by rw [length_mapCells]; exact h)

theorem index_div (w iy ix : Nat) (hix : ix < w) : (iy * w + ix) / w = iy := by
  have hw : 0 < w := Nat.lt_of_le_of_lt (Nat.zero_le ix) hix
  rw [Nat.mul_comm iy w, Nat.mul_add_div hw, Nat.div_eq_of_lt hix]
  omega

theorem index_lt (b : Board) (hWF : WFb b) (ix iy : Nat)
    (hix : ix < b.width) (hiy : iy < b.height) :
    iy * b.width + ix < b.cells.length := by
  rw [hWF.1]
  calc iy * b.width + ix < iy * b.width + b.width := by omega
    _ = (iy + 1) * b.width := by ring
    _ ≤ b.height * b.width := Nat.mul_le_mul_right _ hiy
    _ = b.width * b.height := Nat.mul_comm _ _

theorem cellAt_flood (b : Board) (hWF : WFb b) (x y ix iy : Nat)
    (hix : ix < b.width) (hiy : iy < b.height) :
    cellAt (flood b x y) ix iy =
      if y ≤ iy ∧ partitionAt b ix iy = partitionAt b x y
      then { cellAt b ix iy with state := CellState.Flooded }
      else cellAt b ix iy := by
  have hidx := index_lt b hWF ix iy hix hiy
  show (mapCells _ 0 b.cells).getD (iy * b.width + ix) _ = _
  rw [getD_mapCells0 _ _ _ _ hidx, index_div b.width iy ix hix]
  rfl

theorem stateAt_flood (b : Board) (hWF : WFb b) (x y ix iy : Nat)
    (hix : ix < b.width) (hiy : iy < b.height) :
    stateAt (flood b x y) ix iy =
      if y ≤ iy ∧ partitionAt b ix iy = partitionAt b x y
      then CellState.Flooded
      else stateAt b ix iy := by
  unfold stateAt
  rw [cellAt_flood b hWF x y ix iy hix hiy]
  split <;> rfl

theorem cellAt_invalidate (b : Board) (hWF : WFb b) (x y ix iy : Nat)
    (hix : ix < b.width) (hiy : iy < b.height) :
    cellAt (invalidate b x y) ix iy =
      if iy ≤ y ∧ partitionAt b ix iy = partitionAt b x y
      then { cellAt b ix iy with state := CellState.Invalid }
      else cellAt b ix iy := by
  have hidx := index_lt b hWF ix iy hix hiy
  show (mapCells _ 0 b.cells).getD (iy * b.width + ix) _ = _
  rw [getD_mapCells0 _ _ _ _ hidx, index_div b.width iy ix hix]
  rfl

theorem stateAt_invalidate (b : Board) (hWF : WFb b) (x y ix iy : Nat)
    (hix : ix < b.width) (hiy : iy < b.height) :
    stateAt (invalidate b x y) ix iy =
      if iy ≤ y ∧ partitionAt b ix iy = partitionAt b x y
      then CellState.Invalid
      else stateAt b ix iy := by
  unfold stateAt
  rw [cellAt_invalidate b hWF x y ix iy hix hiy]
  split <;> rfl

theorem partitionAt_flood (b : Board) (x y ix iy : Nat) :
    partitionAt (flood b x y) ix iy = partitionAt b ix iy := by
  unfold partitionAt cellAt
  rcases Nat.lt_or_ge (iy * b.width + ix) b.cells.length with h | h
  · show ((mapCells _ 0 b.cells).getD (iy * b.width + ix) _).partition = _
    rw [getD_mapCells0 _ _ _ _ h]
    split <;> rfl
  · show ((mapCells _ 0 b.cells).getD (iy * b.width + ix) _).partition = _
    rw [getD_mapCells_oob _ _ _ _ h, List.getD_eq_default _ _ h]

theorem partitionAt_invalidate (b : Board) (x y ix iy : Nat) :
    partitionAt (invalidate b x y) ix iy = partitionAt b ix iy := by
  unfold partitionAt cellAt
  rcases Nat.lt_or_ge (iy * b.width + ix) b.cells.length with h | h
  · show ((mapCells _ 0 b.cells).getD (iy * b.width + ix) _).partition = _
    rw [getD_mapCells0 _ _ _ _ h]
    split <;> rfl
  · show ((mapCells _ 0 b.cells).getD (iy * b.width + ix) _).partition = _
    rw [getD_mapCells_oob _ _ _ _ h, List.getD_eq_default _ _ h]

/-! Preservation of the partition invariants by the two mutators (with an
arbitrary anchor cell: the primitives overwrite states unconditionally, yet
each of the three invariants is preserved). -/

theorem rowUniform_flood (b : Board) (hWF : WFb b) (x y : Nat) (h : RowUniform b) :
    RowUniform (flood b x y) := by
  intro iy hiy ix1 hix1 ix2 hix2 hpart
  have hiy' : iy < b.height := hiy
  have hix1' : ix1 < b.width := hix1
  have hix2' : ix2 < b.width := hix2
  rw [partitionAt_flood, partitionAt_flood] at hpart
  rw [stateAt_flood b hWF x y ix1 iy hix1' hiy', stateAt_flood b hWF x y ix2 iy hix2' hiy']
  by_cases hc : y ≤ iy ∧ partitionAt b ix1 iy = partitionAt b x y
  · rw [if_pos hc, if_pos ⟨hc.1, hpart.symm.trans hc.2⟩]
  · rw [if_neg hc, if_neg (fun hc2 => hc ⟨hc2.1, hpart.trans hc2.2⟩)]
    exact h iy hiy' ix1 hix1' ix2 hix2' hpart

theorem rowUniform_invalidate (b : Board) (hWF : WFb b) (x y : Nat) (h : RowUniform b) :
    RowUniform (invalidate b x y) := by
  intro iy hiy ix1 hix1 ix2 hix2 hpart
  have hiy' : iy < b.height := hiy
  have hix1' : ix1 < b.width := hix1
  have hix2' : ix2 < b.width := hix2
  rw [partitionAt_invalidate, partitionAt_invalidate] at hpart
  rw [stateAt_invalidate b hWF x y ix1 iy hix1' hiy',
    stateAt_invalidate b hWF x y ix2 iy hix2' hiy']
  by_cases hc : iy ≤ y ∧ partitionAt b ix1 iy = partitionAt b x y
  · rw [if_pos hc, if_pos ⟨hc.1, hpart.symm.trans hc.2⟩]
  · rw [if_neg hc, if_neg (fun hc2 => hc ⟨hc2.1, hpart.trans hc2.2⟩)]
    exact h iy hiy' ix1 hix1' ix2 hix2' hpart

theorem invalidUp_flood (b : Board) (hWF : WFb b) (x y : Nat) (h : InvalidUp b) :
    InvalidUp (flood b x y) := by
  intro ix1 hix1 iy1 hiy1 ix2 hix2 iy2 hiy2 hle hpart hst2
  have hix1' : ix1 < b.width := hix1
  have hiy1' : iy1 < b.height := hiy1
  have hix2' : ix2 < b.width := hix2
  have hiy2' : iy2 < b.height := hiy2
  rw [partitionAt_flood, partitionAt_flood] at hpart
  rw [stateAt_flood b hWF x y ix2 iy2 hix2' hiy2'] at hst2
  rw [stateAt_flood b hWF x y ix1 iy1 hix1' hiy1']
  by_cases hc2 : y ≤ iy2 ∧ partitionAt b ix2 iy2 = partitionAt b x y
  · rw [if_pos hc2] at hst2; exact absurd hst2 (by simp)
  · rw [if_neg hc2] at hst2
    rw [if_neg (fun hc1 => hc2 ⟨Nat.le_trans hc1.1 hle, hpart.symm.trans hc1.2⟩)]
    exact h ix1 hix1' iy1 hiy1' ix2 hix2' iy2 hiy2' hle hpart hst2

theorem floodedDown_flood (b : Board) (hWF : WFb b) (x y : Nat) (h : FloodedDown b) :
    FloodedDown (flood b x y) := by
  intro ix1 hix1 iy1 hiy1 ix2 hix2 iy2 hiy2 hle hpart hst1
  have hix1' : ix1 < b.width := hix1
  have hiy1' : iy1 < b.height := hiy1
  have hix2' : ix2 < b.width := hix2
  have hiy2' : iy2 < b.height := hiy2
  rw [partitionAt_flood, partitionAt_flood] at hpart
  rw [stateAt_flood b hWF x y ix1 iy1 hix1' hiy1'] at hst1
  rw [stateAt_flood b hWF x y ix2 iy2 hix2' hiy2']
  by_cases hc1 : y ≤ iy1 ∧ partitionAt b ix1 iy1 = partitionAt b x y
  · rw [if_pos ⟨Nat.le_trans hc1.1 hle, hpart.symm.trans hc1.2⟩]
  · rw [if_neg hc1] at hst1
    by_cases hc2 : y ≤ iy2 ∧ partitionAt b ix2 iy2 = partitionAt b x y
    · rw [if_pos hc2]
    · rw [if_neg hc2]
      exact h ix1 hix1' iy1 hiy1' ix2 hix2' iy2 hiy2' hle hpart hst1

theorem invalidUp_invalidate (b : Board) (hWF : WFb b) (x y : Nat) (h : InvalidUp b) :
    InvalidUp (invalidate b x y) := by
  intro ix1 hix1 iy1 hiy1 ix2 hix2 iy2 hiy2 hle hpart hst2
  have hix1' : ix1 < b.width := hix1
  have hiy1' : iy1 < b.height := hiy1
  have hix2' : ix2 < b.width := hix2
  have hiy2' : iy2 < b.height := hiy2
  rw [partitionAt_invalidate, partitionAt_invalidate] at hpart
  rw [stateAt_invalidate b hWF x y ix2 iy2 hix2' hiy2'] at hst2
  rw [stateAt_invalidate b hWF x y ix1 iy1 hix1' hiy1']
  by_cases hc1 : iy1 ≤ y ∧ partitionAt b ix1 iy1 = partitionAt b x y
  · rw [if_pos hc1]
  · rw [if_neg hc1]
    by_cases hc2 : iy2 ≤ y ∧ partitionAt b ix2 iy2 = partitionAt b x y
    · exact absurd ⟨Nat.le_trans hle hc2.1, hpart.trans hc2.2⟩ hc1
    · rw [if_neg hc2] at hst2
      exact h ix1 hix1' iy1 hiy1' ix2 hix2' iy2 hiy2' hle hpart hst2

theorem floodedDown_invalidate (b : Board) (hWF : WFb b) (x y : Nat) (h : FloodedDown b) :
    FloodedDown (invalidate b x y) := by
  intro ix1 hix1 iy1 hiy1 ix2 hix2 iy2 hiy2 hle hpart hst1
  have hix1' : ix1 < b.width := hix1
  have hiy1' : iy1 < b.height := hiy1
  have hix2' : ix2 < b.width := hix2
  have hiy2' : iy2 < b.height := hiy2
  rw [partitionAt_invalidate, partitionAt_invalidate] at hpart
  rw [stateAt_invalidate b hWF x y ix1 iy1 hix1' hiy1'] at hst1
  rw [stateAt_invalidate b hWF x y ix2 iy2 hix2' hiy2']
  by_cases hc1 : iy1 ≤ y ∧ partitionAt b ix1 iy1 = partitionAt b x y
  · rw [if_pos hc1] at hst1; exact absurd hst1 (by simp)
  · rw [if_neg hc1] at hst1
    rw [if_neg (fun hc2 => hc1 ⟨Nat.le_trans hle hc2.1, hpart.trans hc2.2⟩)]
    exact h ix1 hix1' iy1 hiy1' ix2 hix2' iy2 hiy2' hle hpart hst1

theorem boardInv_flood (b : Board) (hWF : WFb b) (x y : Nat) (h : BoardInv b) :
    BoardInv (flood b x y) :=
  ⟨rowUniform_flood b hWF x y h.1, invalidUp_flood b hWF x y h.2.1,
    floodedDown_flood b hWF x y h.2.2⟩

theorem boardInv_invalidate (b : Board) (hWF : WFb b) (x y : Nat) (h : BoardInv b) :
    BoardInv (invalidate b x y) :=
  ⟨rowUniform_invalidate b hWF x y h.1, invalidUp_invalidate b hWF x y h.2.1,
    floodedDown_invalidate b hWF x y h.2.2⟩

theorem allEmpty_boardInv (b : Board) (hWF : WFb b) (hE : AllEmpty b) : BoardInv b := by
  have hstate : ∀ ix iy, ix < b.width → iy < b.height → stateAt b ix iy = CellState.Empty := by
    intro ix iy hix hiy
    have hidx := index_lt b hWF ix iy hix hiy
    unfold stateAt cellAt
    rw [List.getD_eq_getElem _ _ hidx]
    exact hE _ (List.getElem_mem _)
  refine ⟨?_, ?_, ?_⟩
  · intro iy hiy ix1 hix1 ix2 hix2 _
    rw [hstate ix1 iy hix1 hiy, hstate ix2 iy hix2 hiy]
  · intro ix1 hix1 iy1 hiy1 ix2 hix2 iy2 hiy2 _ _ hst2
    rw [hstate ix2 iy2 hix2 hiy2] at hst2
    exact absurd hst2 (by simp)
  · intro ix1 hix1 iy1 hiy1 ix2 hix2 iy2 hiy2 _ _ hst1
    rw [hstate ix1 iy1 hix1 hiy1] at hst1
    exact absurd hst1 (by simp)

theorem WFb_reaches (b b2 : Board) (hR : Reaches b b2) (hWF : WFb b) : WFb b2 := by
  induction hR with
  | refl => exact hWF
  | flood b3 ix iy _ ih => exact WFb_flood _ _ _ ih
  | invalidate b3 ix iy _ ih => exact WFb_invalidate _ _ _ ih

/-! Monotonicity of the two mutators when the anchor cell is Empty. -/

theorem stateAt_flood_mono (b : Board) (hWF : WFb b) (hInv : BoardInv b) (x y : Nat)
    (hx : x < b.width) (hy : y < b.height) (hemp : stateAt b x y = CellState.Empty)
    (ix iy : Nat) (hix : ix < b.width) (hiy : iy < b.height) :
    stateAt (flood b x y) ix iy = stateAt b ix iy ∨
      (stateAt b ix iy = CellState.Empty ∧
        stateAt (flood b x y) ix iy = CellState.Flooded) := by
  rw [stateAt_flood b hWF x y ix iy hix hiy]
  by_cases hc : y ≤ iy ∧ partitionAt b ix iy = partitionAt b x y
  · rw [if_pos hc]
    cases hst : stateAt b ix iy with
    | Empty => exact Or.inr ⟨rfl, rfl⟩
    | Flooded => exact Or.inl rfl
    | Invalid =>
      exact absurd (hInv.2.1 x hx y hy ix hix iy hiy hc.1 hc.2.symm hst)
        (by rw [hemp]; simp)
  · rw [if_neg hc]; exact Or.inl rfl

theorem stateAt_invalidate_mono (b : Board) (hWF : WFb b) (hInv : BoardInv b) (x y : Nat)
    (hx : x < b.width) (hy : y < b.height) (hemp : stateAt b x y = CellState.Empty)
    (ix iy : Nat) (hix : ix < b.width) (hiy : iy < b.height) :
    stateAt (invalidate b x y) ix iy = stateAt b ix iy ∨
      (stateAt b ix iy = CellState.Empty ∧
        stateAt (invalidate b x y) ix iy = CellState.Invalid) := by
  rw [stateAt_invalidate b hWF x y ix iy hix hiy]
  by_cases hc : iy ≤ y ∧ partitionAt b ix iy = partitionAt b x y
  · rw [if_pos hc]
    cases hst : stateAt b ix iy with
    | Empty => exact Or.inr ⟨rfl, rfl⟩
    | Invalid => exact Or.inl rfl
    | Flooded =>
      exact absurd (hInv.2.2 ix hix iy hiy x hx y hy hc.1 hc.2 hst)
        (by rw [hemp]; simp)
  · rw [if_neg hc]; exact Or.inl rfl

/-- C2: at every grid state reachable from an all-Empty well-formed board
through the engine's only mutators (`flood`/`invalidate` calls, in any
sequence — in particular after every call `solve` issues), the three
partition invariants hold: cells of one partition present in one row share
one state, Invalid rows form a prefix from the top and Flooded rows a suffix
from the bottom (so no Invalid cell of a partition lies below a Flooded
one). -/
theorem reachable_invariants (b b2 : Board) (hWF : WFb b) (hE : AllEmpty b)
    (hR : Reaches b b2) : BoardInv b2 := by
  induction hR with
  | refl => exact allEmpty_boardInv b hWF hE
  | flood b3 ix iy h3 ih => exact boardInv_flood _ (WFb_reaches b b3 h3 hWF) _ _ ih
  | invalidate b3 ix iy h3 ih => exact boardInv_invalidate _ (WFb_reaches b b3 h3 hWF) _ _ ih

theorem reachable_invariants_witness :
    WFb tinyB ∧ AllEmpty tinyB ∧ BoardInv (flood tinyB 0 0) :=
  ⟨by decide, by decide,
    reachable_invariants tinyB (flood tinyB 0 0) (by decide) (by decide)
      (Reaches.flood tinyB tinyB 0 0 (Reaches.refl tinyB))⟩

/-- C3 (counterexample): on the well-formed all-Empty 1x1 board with row
hint 0 and column hint 1, one engine round first invalidates the cell (rule
R1) and then floods it again (rule R4): the column pass issues a `flood`
call moving the cell Invalid → Flooded, so cell states are not monotone
across the flood/invalidate calls the engine issues. -/
theorem monotone_call_counterexample :
    AllEmpty c3bad ∧ WFb c3bad ∧
    (r1Pass c3bad).1 = c3mid ∧
    stateAt c3mid 0 0 = CellState.Invalid ∧
    r2Pass c3mid = some (c3mid, false) ∧
    colsPass c3mid = some (flood c3mid 0 0, true) ∧
    stateAt (flood c3mid 0 0) 0 0 = CellState.Flooded := by decide

/-- C3 (amended): across any `flood` or `invalidate` call whose anchor cell
is Empty at call time — which covers every call rules R1 and R2 issue — a
cell's state stays the same or moves Empty → Flooded / Empty → Invalid,
provided the board satisfies the partition invariants; R3/R4 can issue calls
with non-Empty anchors on boards with inconsistent hints, and such calls may
overwrite a terminal state (see the counterexample). -/
theorem empty_anchor_monotone (b : Board) (hWF : WFb b) (hInv : BoardInv b) (x y : Nat)
    (hx : x < b.width) (hy : y < b.height) (hemp : stateAt b x y = CellState.Empty) :
    (∀ ix iy, ix < b.width → iy < b.height →
      stateAt (flood b x y) ix iy = stateAt b ix iy ∨
        (stateAt b ix iy = CellState.Empty ∧
          stateAt (flood b x y) ix iy = CellState.Flooded)) ∧
    (∀ ix iy, ix < b.width → iy < b.height →
      stateAt (invalidate b x y) ix iy = stateAt b ix iy ∨
        (stateAt b ix iy = CellState.Empty ∧
          stateAt (invalidate b x y) ix iy = CellState.Invalid)) :=
  ⟨fun ix iy hix hiy => stateAt_flood_mono b hWF hInv x y hx hy hemp ix iy hix hiy,
   fun ix iy hix hiy => stateAt_invalidate_mono b hWF hInv x y hx hy hemp ix iy hix hiy⟩

theorem empty_anchor_monotone_witness :
    WFb tinyB ∧ BoardInv tinyB ∧ stateAt tinyB 0 0 = CellState.Empty ∧
      stateAt (flood tinyB 0 0) 0 0 = CellState.Flooded :=
  ⟨by decide, by decide, by decide, by
    rcases (empty_anchor_monotone tinyB (by decide) (by decide) 0 0 (by decide) (by decide)
        (by decide)).1 0 0 (by decide) (by decide) with h | h
    · exact absurd h (by decide)
    · exact h.2⟩

/-- C4 (counterexample): the well-formed all-Empty 3x3 board `c4osc` never
reaches quiescence: after `width*height = 9` rounds every round has fired,
the board sits in the all-Flooded state `c4oscLoop`, and one more round
fires again while leaving the board unchanged (so that round also decides no
previously-Empty cell, and the loop never exits). -/
theorem termination_bound_counterexample :
    WFb c4osc ∧ AllEmpty c4osc ∧
    iterRounds (c4osc.width * c4osc.height) c4osc = some c4oscLoop ∧
    solveRound c4oscLoop = some (c4oscLoop, true) ∧
    solveGo (c4osc.width * c4osc.height) c4osc = none := by decide

/-- C4 (amended): the `width*height`-round quiescence bound does not hold
for every board (a firing round may decide no Empty cell and `solve` can
loop forever, see the counterexample); it does hold for the sample board
`make_b0`, whose run reaches quiescence within `width*height = 36`
rounds. -/
theorem b0_quiescence_within_bound :
    (solveGo (make_b0.width * make_b0.height) make_b0).isSome = true := by decide

/-- C10 (counterexample): on the well-formed all-Empty 1x1 board with row
hint 1 and column hint 2, `solve` panics in its very first round: R2 floods
the cell, then the column pass computes `flood_cell_idx = 0 + (0 - 1) = -1`
and `usize::try_from(-1)` fails (modeled as `none`). -/
theorem solve_panic_counterexample :
    WFb c10bad ∧ AllEmpty c10bad ∧ solveRound c10bad = none := by decide

/-- C1: from the all-Empty 6x6 board with the given partition ids and hints,
running `solve` to quiescence yields exactly the expected cell states, and
`is_solved` returns true on the result. -/
theorem b0_solve_scenario :
    solveGo 36 make_b0 = some b0Final ∧
    b0Final.cells.map (fun c => c.state) =
      [CellState.Invalid, CellState.Invalid, CellState.Invalid, CellState.Invalid,
         CellState.Flooded, CellState.Flooded,
       CellState.Flooded, CellState.Flooded, CellState.Invalid, CellState.Invalid,
         CellState.Flooded, CellState.Flooded,
       CellState.Invalid, CellState.Flooded, CellState.Invalid, CellState.Flooded,
         CellState.Flooded, CellState.Invalid,
       CellState.Invalid, CellState.Invalid, CellState.Invalid, CellState.Flooded,
         CellState.Flooded, CellState.Invalid,
       CellState.Invalid, CellState.Invalid, CellState.Invalid, CellState.Invalid,
         CellState.Invalid, CellState.Flooded,
       CellState.Invalid, CellState.Invalid, CellState.Flooded, CellState.Flooded,
         CellState.Flooded, CellState.Flooded] ∧
    isSolved b0Final = true := by decide

/-- C5: `flood(x, y)` sets every cell of `partition_at(x, y)` in rows `>= y`
to Flooded and leaves every other cell's state, every partition id, the
hints and the dimensions unchanged. -/
theorem flood_spec (b : Board) (hWF : WFb b) (x y : Nat)
    (hx : x < b.width) (hy : y < b.height) :
    (∀ ix iy, ix < b.width → iy < b.height →
      (partitionAt b ix iy = partitionAt b x y ∧ y ≤ iy →
        stateAt (flood b x y) ix iy = CellState.Flooded) ∧
      (¬(partitionAt b ix iy = partitionAt b x y ∧ y ≤ iy) →
        stateAt (flood b x y) ix iy = stateAt b ix iy)) ∧
    (∀ ix iy, partitionAt (flood b x y) ix iy = partitionAt b ix iy) ∧
    (flood b x y).row_hints = b.row_hints ∧
    (flood b x y).col_hints = b.col_hints ∧
    (flood b x y).width = b.width ∧ (flood b x y).height = b.height := by
  refine ⟨?_, fun ix iy => partitionAt_flood b x y ix iy, rfl, rfl, rfl, rfl⟩
  intro ix iy hix hiy
  rw [stateAt_flood b hWF x y ix iy hix hiy]
  constructor
  · intro hc; rw [if_pos ⟨hc.2, hc.1⟩]
  · intro hc; rw [if_neg (fun h2 => hc ⟨h2.2, h2.1⟩)]

theorem flood_spec_witness :
    WFb tinyB ∧ 0 < tinyB.width ∧ 0 < tinyB.height ∧
      stateAt (flood tinyB 0 0) 0 0 = CellState.Flooded :=
  ⟨by decide, by decide, by decide,
    ((flood_spec tinyB (by decide) 0 0 (by decide) (by decide)).1 0 0
        (by decide) (by decide)).1 ⟨rfl, Nat.le_refl 0⟩⟩

/-- C6: `invalidate(x, y)` sets every cell of `partition_at(x, y)` in rows
`<= y` to Invalid and leaves every other cell's state, every partition id,
the hints and the dimensions unchanged. -/
theorem invalidate_spec (b : Board) (hWF : WFb b) (x y : Nat)
    (hx : x < b.width) (hy : y < b.height) :
    (∀ ix iy, ix < b.width → iy < b.height →
      (partitionAt b ix iy = partitionAt b x y ∧ iy ≤ y →
        stateAt (invalidate b x y) ix iy = CellState.Invalid) ∧
      (¬(partitionAt b ix iy = partitionAt b x y ∧ iy ≤ y) →
        stateAt (invalidate b x y) ix iy = stateAt b ix iy)) ∧
    (∀ ix iy, partitionAt (invalidate b x y) ix iy = partitionAt b ix iy) ∧
    (invalidate b x y).row_hints = b.row_hints ∧
    (invalidate b x y).col_hints = b.col_hints ∧
    (invalidate b x y).width = b.width ∧ (invalidate b x y).height = b.height := by
  refine ⟨?_, fun ix iy => partitionAt_invalidate b x y ix iy, rfl, rfl, rfl, rfl⟩
  intro ix iy hix hiy
  rw [stateAt_invalidate b hWF x y ix iy hix hiy]
  constructor
  · intro hc; rw [if_pos ⟨hc.2, hc.1⟩]
  · intro hc; rw [if_neg (fun h2 => hc ⟨h2.2, h2.1⟩)]

theorem invalidate_spec_witness :
    WFb tinyB ∧ 0 < tinyB.width ∧ 0 < tinyB.height ∧
      stateAt (invalidate tinyB 0 0) 0 0 = CellState.Invalid :=
  ⟨by decide, by decide, by decide,
    ((invalidate_spec tinyB (by decide) 0 0 (by decide) (by decide)).1 0 0
        (by decide) (by decide)).1 ⟨rfl, Nat.le_refl 0⟩⟩

/-- C9: `is_solved` returns true iff every row's Flooded count equals its
row hint and every column's Flooded count equals its column hint (Empty and
Invalid cells are not counted; the function reads the board and has no
effect on it, and is meaningful in any state). -/
theorem is_solved_iff (b : Board) (hWF : WFb b) :
    isSolved b = true ↔
      ((∀ iy, iy < b.height →
          rowCellCount b iy CellState.Flooded = b.row_hints.getD iy 0) ∧
       (∀ ix, ix < b.width →
          colFloodedCount b ix = b.col_hints.getD ix 0)) := by
  unfold isSolved
  rw [Bool.and_eq_true, List.all_eq_true, List.all_eq_true]
  constructor
  · rintro ⟨h1, h2⟩
    exact ⟨fun iy hiy => of_decide_eq_true (h1 iy (List.mem_range.mpr hiy)),
           fun ix hix => of_decide_eq_true (h2 ix (List.mem_range.mpr hix))⟩
  · rintro ⟨h1, h2⟩
    exact ⟨fun iy hiy => decide_eq_true (h1 iy (List.mem_range.mp hiy)),
           fun ix hix => decide_eq_true (h2 ix (List.mem_range.mp hix))⟩

theorem is_solved_iff_witness :
    WFb b0Final ∧ isSolved b0Final = true ∧
      ((∀ iy, iy < b0Final.height →
          rowCellCount b0Final iy CellState.Flooded = b0Final.row_hints.getD iy 0) ∧
       (∀ ix, ix < b0Final.width →
          colFloodedCount b0Final ix = b0Final.col_hints.getD ix 0)) :=
  ⟨by decide, by decide, (is_solved_iff b0Final (by decide)).mp (by decide)⟩

/-! Lemmas about the row aggregate maps and the R2 pass. -/

theorem mem_dedupFirst (x : Int) : ∀ l : List Int, x ∈ dedupFirst l ↔ x ∈ l := by
  intro l
  induction l with
  | nil => simp [dedupFirst]
  | cons a as ih =>
    by_cases hxa : x = a
    · subst hxa; simp [dedupFirst]
    · simp [dedupFirst, List.mem_filter, ih, hxa]

theorem nodup_dedupFirst : ∀ l : List Int, (dedupFirst l).Nodup := by
  intro l
  induction l with
  | nil => simp [dedupFirst]
  | cons a as ih =>
    refine List.Nodup.cons ?_ (List.Nodup.filter _ ih)
    intro hmem
    have := (List.mem_filter.mp hmem).2
    simp at this

theorem rowPartState_self (b : Board) (hU : RowUniform b) (ix iy : Nat)
    (hix : ix < b.width) (hiy : iy < b.height) :
    rowPartState b iy (partitionAt b ix iy) = some (stateAt b ix iy) := by
  unfold rowPartState
  have hex : ((List.range b.width).find?
      (fun x => partitionAt b x iy = partitionAt b ix iy)).isSome = true := by
    rw [List.find?_isSome]
    exact ⟨ix, List.mem_range.mpr hix, by simp⟩
  obtain ⟨x0, hx0⟩ := Option.isSome_iff_exists.mp hex
  rw [hx0, Option.map_some']
  have hp := List.find?_some hx0
  have hpeq : partitionAt b x0 iy = partitionAt b ix iy := of_decide_eq_true hp
  have hx0w : x0 < b.width := List.mem_range.mp (List.mem_of_find?_eq_some hx0)
  rw [hU iy hiy x0 hx0w ix hix hpeq]

theorem mem_rowParts (b : Board) (ix iy : Nat) (hix : ix < b.width) :
    partitionAt b ix iy ∈ rowParts b iy := by
  unfold rowParts
  rw [mem_dedupFirst]
  exact List.mem_map.mpr ⟨ix, List.mem_range.mpr hix, rfl⟩

theorem rowHasEmptyKey_of_empty (b : Board) (hU : RowUniform b) (ix iy : Nat)
    (hix : ix < b.width) (hiy : iy < b.height) (hemp : stateAt b ix iy = CellState.Empty) :
    rowHasEmptyKey b iy = true := by
  unfold rowHasEmptyKey
  rw [List.any_eq_true]
  refine ⟨partitionAt b ix iy, mem_rowParts b ix iy hix, ?_⟩
  rw [rowPartState_self b hU ix iy hix hiy, hemp]
  simp

theorem foldlM_range_succ {α : Type} (f : α → Nat → Option α) (a : α) (k : Nat) :
    (List.range (k + 1)).foldlM f a = ((List.range k).foldlM f a).bind (fun x => f x k) := by
  rw [List.range_succ, List.foldlM_append]
  cases (List.range k).foldlM f a with
  | none => rfl
  | some x => simp [List.foldlM]

theorem r2Upto_zero (b : Board) (iy : Nat) : r2Upto b iy 0 = some (b, false) := rfl

theorem r2Upto_succ (b : Board) (iy k : Nat) :
    r2Upto b iy (k + 1) = (r2Upto b iy k).bind (fun acc => r2step b iy acc k) := by
  unfold r2Upto
  exact foldlM_range_succ (r2step b iy) (b, false) k

theorem r2step_eq (b : Board) (iy : Nat) (acc : Board × Bool) (ix : Nat) (res : Board × Bool)
    (h : r2step b iy acc ix = some res) :
    res = acc ∨
      (stateAt acc.1 ix iy = CellState.Empty ∧ res = (flood acc.1 ix iy, true)) := by
  unfold r2step at h
  by_cases h1 : (cellAt acc.1 ix iy).state = CellState.Empty
  · rw [if_pos h1] at h
    by_cases h2 : rowHasEmptyKey b iy = true
    · rw [if_pos h2] at h
      by_cases h3 : rowStateCount b iy CellState.Empty -
          rowPartSize b iy (cellAt acc.1 ix iy).partition < rowRemainder b iy
      · rw [if_pos h3] at h
        exact Or.inr ⟨h1, (Option.some.inj h).symm⟩
      · rw [if_neg h3] at h
        exact Or.inl (Option.some.inj h).symm
    · rw [if_neg h2] at h
      cases h
  · rw [if_neg h1] at h
    exact Or.inl (Option.some.inj h).symm

theorem r2Upto_props (b : Board) (hWF : WFb b) (hInv : BoardInv b) (iy : Nat)
    (hy : iy < b.height) :
    ∀ k, k ≤ b.width → ∀ bk u, r2Upto b iy k = some (bk, u) →
      bk.width = b.width ∧ bk.height = b.height ∧
      bk.row_hints = b.row_hints ∧ bk.col_hints = b.col_hints ∧
      WFb bk ∧ BoardInv bk ∧
      (∀ ix2 iy2, partitionAt bk ix2 iy2 = partitionAt b ix2 iy2) ∧
      (∀ ix2 iy2, ix2 < b.width → iy2 < b.height →
        stateAt bk ix2 iy2 = stateAt b ix2 iy2 ∨
          (stateAt b ix2 iy2 = CellState.Empty ∧
            stateAt bk ix2 iy2 = CellState.Flooded)) := by
  intro k
  induction k with
  | zero =>
    intro _ bk u hpre
    rw [r2Upto_zero] at hpre
    obtain ⟨rfl, rfl⟩ : b = bk ∧ false = u := by
      have := Option.some.inj hpre
      exact ⟨congrArg Prod.fst this, congrArg Prod.snd this⟩
    exact ⟨rfl, rfl, rfl, rfl, hWF, hInv, fun _ _ => rfl,
      fun _ _ _ _ => Or.inl rfl⟩
  | succ k ih =>
    intro hk bk u hpre
    rw [r2Upto_succ] at hpre
    cases hmid : r2Upto b iy k with
    | none => rw [hmid] at hpre; cases hpre
    | some acc =>
      rw [hmid] at hpre
      obtain ⟨hw, hh, hrh, hch, hWFa, hInva, hparts, hdich⟩ :=
        ih (Nat.le_of_succ_le hk) acc.1 acc.2 (by rw [hmid])
      have hkw : k < b.width := hk
      rcases r2step_eq b iy acc k (bk, u) hpre with heq | ⟨hanc, heq⟩
      · have hbk : bk = acc.1 := congrArg Prod.fst heq
        subst hbk
        exact ⟨hw, hh, hrh, hch, hWFa, hInva, hparts, hdich⟩
      · have hbk : bk = flood acc.1 k iy := congrArg Prod.fst heq
        subst hbk
        have hkw' : k < acc.1.width := by rw [hw]; exact hkw
        have hy' : iy < acc.1.height := by rw [hh]; exact hy
        refine ⟨hw, hh, hrh, hch, WFb_flood _ _ _ hWFa,
          boardInv_flood _ hWFa _ _ hInva,
          fun ix2 iy2 => (partitionAt_flood acc.1 k iy ix2 iy2).trans (hparts ix2 iy2),
          ?_⟩
        intro ix2 iy2 hix2 hiy2
        have hix2' : ix2 < acc.1.width := by rw [hw]; exact hix2
        have hiy2' : iy2 < acc.1.height := by rw [hh]; exact hiy2
        rcases stateAt_flood_mono acc.1 hWFa hInva k iy hkw' hy' hanc ix2 iy2 hix2' hiy2'
          with hsame | ⟨haE, haF⟩
        · rw [hsame]
          exact hdich ix2 iy2 hix2 hiy2
        · rcases hdich ix2 iy2 hix2 hiy2 with hs2 | ⟨hbE, hbF⟩
          · rw [hs2] at haE
            exact Or.inr ⟨haE, haF⟩
          · rw [hbF] at haE
            cases haE

/-- C10 (amended): rule R2's `map_totals[&CellState::Empty]` lookup never
panics: whenever the R2 pass over row `iy` of a board satisfying the
partition invariants reaches a cell that is Empty at that moment, the Empty
key is present in the row's state-totals map.  The R3/R4 index computations,
in contrast, can go out of bounds or negative on well-formed all-Empty
boards whose hints are inconsistent (see the counterexample), where `solve`
panics. -/
theorem r2_empty_key_present (b : Board) (hWF : WFb b) (hInv : BoardInv b)
    (iy k : Nat) (hy : iy < b.height) (hk : k < b.width)
    (bk : Board) (u : Bool) (hpre : r2Upto b iy k = some (bk, u))
    (hemp : stateAt bk k iy = CellState.Empty) :
    rowHasEmptyKey b iy = true := by
  obtain ⟨_, _, _, _, _, _, _, hdich⟩ :=
    r2Upto_props b hWF hInv iy hy k (Nat.le_of_lt hk) bk u hpre
  rcases hdich k iy hk hy with hsame | ⟨_, hF⟩
  · exact rowHasEmptyKey_of_empty b hInv.1 k iy hk hy (hsame ▸ hemp)
  · rw [hF] at hemp
    cases hemp

theorem r2_empty_key_present_witness :
    WFb tinyB1 ∧ BoardInv tinyB1 ∧ 0 < tinyB1.height ∧ 0 < tinyB1.width ∧
      r2Upto tinyB1 0 0 = some (tinyB1, false) ∧
      stateAt tinyB1 0 0 = CellState.Empty ∧
      rowHasEmptyKey tinyB1 0 = true :=
  ⟨by decide, by decide, by decide, by decide, rfl, by decide,
    r2_empty_key_present tinyB1 (by decide) (by decide) 0 0 (by decide) (by decide)
      tinyB1 false rfl (by decide)⟩

/-! Counting lemmas connecting the partition-sum totals of `row_state_counts`
with plain per-cell counts. -/

theorem sum_map_add_int (f g : Int → Int) :
    ∀ P : List Int, (P.map (fun p => f p + g p)).sum = (P.map f).sum + (P.map g).sum := by
  intro P
  induction P with
  | nil => simp
  | cons a P ih => simp [ih]; ring

theorem sum_indicator_int (v : Int) :
    ∀ P : List Int, P.Nodup →
      (P.map (fun p => if v = p then (1 : Int) else 0)).sum = if v ∈ P then 1 else 0 := by
  intro P
  induction P with
  | nil => simp
  | cons a P ih =>
    intro hnd
    rcases List.nodup_cons.mp hnd with ⟨hna, hnd'⟩
    by_cases hva : v = a
    · subst hva
      have hz : (P.map (fun p => if v = p then (1 : Int) else 0)).sum = 0 := by
        apply List.sum_eq_zero
        intro x hx
        rcases List.mem_map.mp hx with ⟨p, hp, hpx⟩
        have : v ≠ p := fun hvp => hna (hvp ▸ hp)
        rw [← hpx, if_neg this]
      simp [hz]
    · have hmem : (v ∈ a :: P) ↔ (v ∈ P) := by simp [hva]
      rw [List.map_cons, List.sum_cons, if_neg hva, ih hnd']
      by_cases hvP : v ∈ P
      · rw [if_pos hvP, if_pos (hmem.mpr hvP)]; ring
      · rw [if_neg hvP, if_neg (fun h => hvP (hmem.mp h))]; ring

theorem sum_filter_counts (g : Nat → Int) (Q : Int → Bool) :
    ∀ (l : List Nat) (P : List Int), P.Nodup → (∀ x ∈ l, g x ∈ P) →
      ((P.filter Q).map
        (fun p => Int.ofNat ((l.filter (fun x => g x = p)).length))).sum
        = Int.ofNat ((l.filter (fun x => Q (g x))).length) := by
  intro l
  induction l with
  | nil =>
    intro P hnd hmem
    rw [List.filter_nil]
    have : ∀ x ∈ (P.filter Q).map
        (fun p => Int.ofNat (([] : List Nat).length)), x = 0 := by
      intro x hx
      rcases List.mem_map.mp hx with ⟨p, _, hpx⟩
      simpa using hpx.symm
    simp
  | cons a l ih =>
    intro P hnd hmem
    have hga : g a ∈ P := hmem a (List.mem_cons_self a l)
    have hmem' : ∀ x ∈ l, g x ∈ P := fun x hx => hmem x (List.mem_cons_of_mem a hx)
    have hsplit : ∀ p : Int,
        Int.ofNat (((a :: l).filter (fun x => g x = p)).length) =
          (if g a = p then (1 : Int) else 0) +
            Int.ofNat ((l.filter (fun x => g x = p)).length) := by
      intro p
      rw [List.filter_cons]
      by_cases hgp : g a = p
      · simp [hgp]; omega
      · simp [hgp]
    have hstep :
        ((P.filter Q).map
          (fun p => Int.ofNat (((a :: l).filter (fun x => g x = p)).length))).sum =
        ((P.filter Q).map (fun p => if g a = p then (1 : Int) else 0)).sum +
        ((P.filter Q).map
          (fun p => Int.ofNat ((l.filter (fun x => g x = p)).length))).sum := by
      rw [← sum_map_add_int]
      congr 1
      exact List.map_congr_left (fun p _ => hsplit p)
    rw [hstep, ih P hnd hmem', sum_indicator_int (g a) (P.filter Q) (List.Nodup.filter Q hnd)]
    have hiff : (g a ∈ P.filter Q) ↔ Q (g a) = true := by
      rw [List.mem_filter]
      exact ⟨fun h => h.2, fun h => ⟨hga, h⟩⟩
    rw [List.filter_cons]
    by_cases hQ : Q (g a) = true
    · rw [if_pos (hiff.mpr hQ)]
      simp [hQ]
      omega
    · rw [if_neg (fun h => hQ (hiff.mp h))]
      have : (decide (Q (g a) = true)) = false := by simp [hQ]
      simp [hQ]

theorem rowStateCount_eq_cellCount (b : Board) (hU : RowUniform b) (iy : Nat)
    (hiy : iy < b.height) (s : CellState) :
    rowStateCount b iy s = rowCellCount b iy s := by
  have hgen := sum_filter_counts (fun ix => partitionAt b ix iy)
      (fun p => decide (rowPartState b iy p = some s))
      (List.range b.width) (rowParts b iy)
      (nodup_dedupFirst _)
      (fun x hx => mem_rowParts b x iy (List.mem_range.mp hx))
  have hcong : (List.range b.width).filter
      (fun x => decide (rowPartState b iy (partitionAt b x iy) = some s)) =
      (List.range b.width).filter (fun x => decide (stateAt b x iy = s)) := by
    apply List.filter_congr
    intro x hx
    rw [rowPartState_self b hU x iy (List.mem_range.mp hx) hiy]
    by_cases hxs : stateAt b x iy = s
    · simp [hxs]
    · simp [hxs]
  unfold rowStateCount rowCellCount
  rw [← hcong]
  exact hgen

theorem countEF_list (s1 s2 : Nat → CellState) :
    ∀ l : List Nat,
      (∀ ix ∈ l, s2 ix = s1 ix ∨ (s1 ix = CellState.Empty ∧ s2 ix = CellState.Flooded)) →
      (l.filter (fun ix => s1 ix = CellState.Empty)).length +
        (l.filter (fun ix => s1 ix = CellState.Flooded)).length =
      (l.filter (fun ix => s2 ix = CellState.Empty)).length +
        (l.filter (fun ix => s2 ix = CellState.Flooded)).length := by
  intro l
  induction l with
  | nil => intro _; rfl
  | cons a l ih =>
    intro h
    have hrest := ih (fun ix hx => h ix (List.mem_cons_of_mem a hx))
    rcases h a (List.mem_cons_self a l) with he | ⟨h1, h2⟩
    · cases hs : s1 a with
      | Empty =>
        rw [hs] at he
        simp only [List.filter_cons, he, hs]
        simp
        omega
      | Flooded =>
        rw [hs] at he
        simp only [List.filter_cons, he, hs]
        simp
        omega
      | Invalid =>
        rw [hs] at he
        simp only [List.filter_cons, he, hs]
        simp
        omega
    · simp only [List.filter_cons, h1, h2]
      simp
      omega

theorem rowPartSize_congr (b1 b2 : Board) (hw : b1.width = b2.width)
    (hp : ∀ ix iy, partitionAt b1 ix iy = partitionAt b2 ix iy) (iy : Nat) (p : Int) :
    rowPartSize b1 iy p = rowPartSize b2 iy p := by
  unfold rowPartSize
  rw [hw]
  exact congrArg (fun t => Int.ofNat (List.length t))
    (List.filter_congr (fun x _ => by rw [hp x iy]))

/-- C7: during the R2 pass over row `iy`, for each cell that is Empty at the
moment it is examined, the engine issues `flood` if and only if
`emptyCount - partitionSizeInRow < remaining` where
`remaining = row_hints[iy] - floodedCount`, with the Empty count, the Flooded
count and the partition size all evaluated on the current grid state (the
code evaluates its aggregates once per row, but floods earlier in the same
row shrink the Empty count and the remaining count by the same amount, so
the stale test equals the fresh one). -/
theorem r2_flood_iff (b : Board) (hWF : WFb b) (hInv : BoardInv b)
    (iy k : Nat) (hy : iy < b.height) (hk : k < b.width)
    (bk : Board) (u : Bool) (hpre : r2Upto b iy k = some (bk, u))
    (hemp : stateAt bk k iy = CellState.Empty) :
    r2step b iy (bk, u) k = some (flood bk k iy, true) ↔
      rowCellCount bk iy CellState.Empty - rowPartSize bk iy (partitionAt bk k iy) <
        bk.row_hints.getD iy 0 - rowCellCount bk iy CellState.Flooded := by
  obtain ⟨hw, hh, hrh, hch, hWFk, hInvk, hparts, hdich⟩ :=
    r2Upto_props b hWF hInv iy hy k (Nat.le_of_lt hk) bk u hpre
  have hbE : stateAt b k iy = CellState.Empty := by
    rcases hdich k iy hk hy with hs | ⟨_, hF⟩
    · rw [← hs]; exact hemp
    · rw [hF] at hemp; cases hemp
  have hkey : rowHasEmptyKey b iy = true :=
    rowHasEmptyKey_of_empty b hInv.1 k iy hk hy hbE
  have hcell : (cellAt bk k iy).state = CellState.Empty := hemp
  have e1 : rowStateCount b iy CellState.Empty = rowCellCount b iy CellState.Empty :=
    rowStateCount_eq_cellCount b hInv.1 iy hy CellState.Empty
  have e2 : rowStateCount b iy CellState.Flooded = rowCellCount b iy CellState.Flooded :=
    rowStateCount_eq_cellCount b hInv.1 iy hy CellState.Flooded
  have e3 : rowPartSize bk iy (partitionAt bk k iy) =
      rowPartSize b iy (cellAt bk k iy).partition :=
    rowPartSize_congr bk b hw hparts iy (partitionAt bk k iy)
  have e4 : bk.row_hints.getD iy 0 = b.row_hints.getD iy 0 := by rw [hrh]
  have hEF : rowCellCount b iy CellState.Empty + rowCellCount b iy CellState.Flooded =
      rowCellCount bk iy CellState.Empty + rowCellCount bk iy CellState.Flooded := by
    unfold rowCellCount
    rw [hw]
    have hc2 : ((List.range b.width).filter
          (fun ix => stateAt b ix iy = CellState.Empty)).length +
        ((List.range b.width).filter
          (fun ix => stateAt b ix iy = CellState.Flooded)).length =
        ((List.range b.width).filter
          (fun ix => stateAt bk ix iy = CellState.Empty)).length +
        ((List.range b.width).filter
          (fun ix => stateAt bk ix iy = CellState.Flooded)).length :=
      countEF_list (fun ix => stateAt b ix iy) (fun ix => stateAt bk ix iy)
        (List.range b.width) (fun ix hx => hdich ix iy (List.mem_range.mp hx) hy)
    simp only [Int.ofNat_eq_natCast]
    omega
  have hSF : (rowStateCount b iy CellState.Empty -
        rowPartSize b iy (cellAt bk k iy).partition < rowRemainder b iy) ↔
      (rowCellCount bk iy CellState.Empty - rowPartSize bk iy (partitionAt bk k iy) <
        bk.row_hints.getD iy 0 - rowCellCount bk iy CellState.Flooded) := by
    unfold rowRemainder
    rw [e1, e2, e3, e4]
    omega
  by_cases hc : rowStateCount b iy CellState.Empty -
      rowPartSize b iy (cellAt bk k iy).partition < rowRemainder b iy
  · have hstep : r2step b iy (bk, u) k = some (flood bk k iy, true) := by
      simp [r2step, hcell, hkey, hc]
    exact iff_of_true hstep (hSF.mp hc)
  · have hstep : r2step b iy (bk, u) k = some (bk, u) := by
      simp [r2step, hcell, hkey, hc]
    refine iff_of_false ?_ (fun hf => hc (hSF.mpr hf))
    rw [hstep]
    intro hsome
    have hbds : bk = flood bk k iy := congrArg Prod.fst (Option.some.inj hsome)
    have hkw' : k < bk.width := by rw [hw]; exact hk
    have hy' : iy < bk.height := by rw [hh]; exact hy
    have hfl : stateAt (flood bk k iy) k iy = CellState.Flooded := by
      rw [stateAt_flood bk hWFk k iy k iy hkw' hy', if_pos ⟨Nat.le_refl iy, rfl⟩]
    rw [← hbds, hemp] at hfl
    cases hfl

theorem r2_flood_iff_witness :
    WFb tinyB1 ∧ BoardInv tinyB1 ∧ 0 < tinyB1.height ∧ 0 < tinyB1.width ∧
      r2Upto tinyB1 0 0 = some (tinyB1, false) ∧
      stateAt tinyB1 0 0 = CellState.Empty ∧
      r2step tinyB1 0 (tinyB1, false) 0 = some (flood tinyB1 0 0, true) :=
  ⟨by decide, by decide, by decide, by decide, rfl, by decide,
    (r2_flood_iff tinyB1 (by decide) (by decide) 0 0 (by decide) (by decide)
      tinyB1 false rfl (by decide)).mpr (by decide)⟩

theorem colPartStateCount_nonneg (b : Board) (ix : Nat) (p : Int) (s : CellState) :
    0 ≤ colPartStateCount b ix p s := by
  unfold colPartStateCount
  exact Int.ofNat_nonneg _

/-- C8: in the column pass over column `ix`, for a partition `p` present in
the column with `e` Empty and `i` Invalid cells there, if
`extra = e - remainder > 0` (with `remainder = col_hints[ix] - floodedCount`),
rule R3 issues `invalidate` at column `ix` and the row stored at zero-based
entry `i + extra - 1` of the partition's per-column row list; that list is
sorted in strictly ascending row order as constructed. -/
theorem r3_invalidate_target (b : Board) (ix : Nat) (p : Int) (bd : Board) (rem e i : Int)
    (hp : p ∈ colParts b ix)
    (hrem : rem = colRemainder b ix)
    (he : e = colPartStateCount b ix p CellState.Empty)
    (hi : i = colPartStateCount b ix p CellState.Invalid)
    (hextra : 0 < e - rem)
    (hidx : (i + (e - rem) - 1).toNat < (colPartRows b ix p).length) :
    (∃ iy, (colPartRows b ix p).get? (i + (e - rem) - 1).toNat = some iy ∧
      colPartR3 b ix rem p bd = some (invalidate bd ix iy, true)) ∧
    List.Pairwise (fun a c => a < c) (colPartRows b ix p) := by
  subst hrem he hi
  constructor
  · have hget := List.get?_eq_get hidx
    refine ⟨(colPartRows b ix p).get ⟨_, hidx⟩, hget, ?_⟩
    have hinn : 0 ≤ colPartStateCount b ix p CellState.Invalid :=
      colPartStateCount_nonneg b ix p CellState.Invalid
    have hnn : ¬(colPartStateCount b ix p CellState.Invalid +
        (colPartStateCount b ix p CellState.Empty - colRemainder b ix) - 1 < 0) := by
      omega
    simp only [colPartR3]
    rw [if_pos hextra, if_neg hnn, hget]
  · exact List.Pairwise.filter _ (List.pairwise_lt_range b.height)

theorem r3_invalidate_target_witness :
    (0 : Int) ∈ colParts tinyB 0 ∧
    (0 : Int) = colRemainder tinyB 0 ∧
    (1 : Int) = colPartStateCount tinyB 0 0 CellState.Empty ∧
    (0 : Int) = colPartStateCount tinyB 0 0 CellState.Invalid ∧
    ((∃ iy, (colPartRows tinyB 0 0).get? ((0 : Int) + ((1 : Int) - 0) - 1).toNat = some iy ∧
        colPartR3 tinyB 0 0 0 tinyB = some (invalidate tinyB 0 iy, true)) ∧
      List.Pairwise (fun a c => a < c) (colPartRows tinyB 0 0)) :=
  ⟨by decide, by decide, by decide, by decide,
    r3_invalidate_target tinyB 0 0 tinyB 0 1 0 (by decide) (by decide) (by decide)
      (by decide) (by decide) (by decide)⟩

/-! The engine only ever mutates the grid through `flood`/`invalidate`:
every board produced by the passes and by `solve` lies in the `Reaches`
closure of its input. -/

theorem reaches_trans (b1 b2 b3 : Board) (h12 : Reaches b1 b2) (h23 : Reaches b2 b3) :
    Reaches b1 b3 := by
  induction h23 with
  | refl => exact h12
  | flood b4 ix iy _ ih => exact Reaches.flood _ _ ix iy ih
  | invalidate b4 ix iy _ ih => exact Reaches.invalidate _ _ ix iy ih

theorem r1step_reaches (b0 base : Board) (iy : Nat) (acc : Board × Bool) (ix : Nat)
    (h : Reaches base acc.1) : Reaches base (r1step b0 iy acc ix).1 := by
  simp only [r1step]
  split
  · split
    · exact Reaches.invalidate _ _ _ _ h
    · exact h
  · exact h

theorem foldl_reaches {α : Type} (base : Board) (g : Board × Bool → α → Board × Bool)
    (hg : ∀ acc x, Reaches base acc.1 → Reaches base (g acc x).1) :
    ∀ (l : List α) (acc : Board × Bool), Reaches base acc.1 →
      Reaches base (l.foldl g acc).1 := by
  intro l
  induction l with
  | nil => intro acc h; exact h
  | cons a l ih => intro acc h; exact ih (g acc a) (hg acc a h)

theorem foldlM_reaches {α : Type} (base : Board) (g : Board × Bool → α → Option (Board × Bool))
    (hg : ∀ acc x res, Reaches base acc.1 → g acc x = some res → Reaches base res.1) :
    ∀ (l : List α) (acc : Board × Bool) (res : Board × Bool), Reaches base acc.1 →
      l.foldlM g acc = some res → Reaches base res.1 := by
  intro l
  induction l with
  | nil =>
    intro acc res h heq
    cases Option.some.inj heq
    exact h
  | cons a l ih =>
    intro acc res h heq
    rw [List.foldlM_cons] at heq
    cases hmid : g acc a with
    | none =>
      rw [hmid] at heq
      exact absurd (show (none : Option (Board × Bool)) = some res from heq) (by simp)
    | some mid =>
      rw [hmid] at heq
      exact ih mid res (hg acc a mid h hmid)
        (show l.foldlM g mid = some res from heq)

theorem r1Row_reaches (base b : Board) (iy : Nat) (h : Reaches base b) :
    Reaches base (r1Row b iy).1 :=
  foldl_reaches base (r1step b iy) (fun acc x hx => r1step_reaches b base iy acc x hx)
    (List.range b.width) (b, false) h

theorem r1Pass_reaches (b : Board) : Reaches b (r1Pass b).1 := by
  unfold r1Pass
  exact foldl_reaches b
    (fun acc iy =>
      let r := r1Row acc.1 iy
      (r.1, acc.2 || r.2))
    (fun acc iy hx => r1Row_reaches b acc.1 iy hx)
    (List.range b.height).reverse (b, false) (Reaches.refl b)

theorem r2Row_reaches (base b : Board) (iy : Nat) (res : Board × Bool) (h : Reaches base b)
    (heq : r2Row b iy = some res) : Reaches base res.1 := by
  refine foldlM_reaches base (r2step b iy) ?_ (List.range b.width) (b, false) res h heq
  intro acc x res2 hacc hstep
  rcases r2step_eq b iy acc x res2 hstep with rfl | ⟨_, rfl⟩
  · exact hacc
  · exact Reaches.flood _ _ _ _ hacc

theorem r2Pass_reaches (b : Board) (res : Board × Bool) (heq : r2Pass b = some res) :
    Reaches b res.1 := by
  refine foldlM_reaches b
    (fun acc iy => do
      let r ← r2Row acc.1 iy
      pure (r.1, acc.2 || r.2))
    ?_ (List.range b.height) (b, false) res (Reaches.refl b) heq
  intro acc iy res2 hacc hstep
  have hstep2 : (do
      let r ← r2Row acc.1 iy
      pure (r.1, acc.2 || r.2) : Option (Board × Bool)) = some res2 := hstep
  cases hrow : r2Row acc.1 iy with
  | none =>
    rw [hrow] at hstep2
    exact absurd (show (none : Option (Board × Bool)) = some res2 from hstep2) (by simp)
  | some r =>
    rw [hrow] at hstep2
    have hres : res2 = (r.1, acc.2 || r.2) :=
      (Option.some.inj (show some (r.1, acc.2 || r.2) = some res2 from hstep2)).symm
    rw [hres]
    exact r2Row_reaches b acc.1 iy r hacc hrow

theorem colPartR3_reaches (base b : Board) (ix : Nat) (rem : Int) (p : Int) (bd : Board)
    (res : Board × Bool) (h : Reaches base bd) (heq : colPartR3 b ix rem p bd = some res) :
    Reaches base res.1 := by
  simp only [colPartR3] at heq
  split at heq
  · split at heq
    · cases heq
    · split at heq
      · cases heq
      · cases Option.some.inj heq
        exact Reaches.invalidate _ _ _ _ h
  · cases Option.some.inj heq
    exact h

theorem colPartR4_reaches (base b : Board) (ix : Nat) (rem : Int) (p : Int) (bd : Board)
    (res : Board × Bool) (h : Reaches base bd) (heq : colPartR4 b ix rem p bd = some res) :
    Reaches base res.1 := by
  simp only [colPartR4] at heq
  split at heq
  · split at heq
    · cases heq
    · split at heq
      · cases heq
      · cases Option.some.inj heq
        exact Reaches.flood _ _ _ _ h
  · cases Option.some.inj heq
    exact h

theorem colPartStep_reaches (base b : Board) (ix : Nat) (rem : Int) (acc : Board × Bool)
    (p : Int) (res : Board × Bool) (h : Reaches base acc.1)
    (heq : colPartStep b ix rem acc p = some res) : Reaches base res.1 := by
  unfold colPartStep at heq
  cases h3 : colPartR3 b ix rem p acc.1 with
  | none =>
    rw [h3] at heq
    exact absurd (show (none : Option (Board × Bool)) = some res from heq) (by simp)
  | some r3 =>
    rw [h3] at heq
    have heq2 : (do
        let r4 ← colPartR4 b ix rem p r3.1
        pure (r4.1, acc.2 || r3.2 || r4.2) : Option (Board × Bool)) = some res := heq
    cases h4 : colPartR4 b ix rem p r3.1 with
    | none =>
      rw [h4] at heq2
      exact absurd (show (none : Option (Board × Bool)) = some res from heq2) (by simp)
    | some r4 =>
      rw [h4] at heq2
      have hres : res = (r4.1, acc.2 || r3.2 || r4.2) :=
        (Option.some.inj
          (show some (r4.1, acc.2 || r3.2 || r4.2) = some res from heq2)).symm
      rw [hres]
      exact colPartR4_reaches base b ix rem p r3.1 r4
        (colPartR3_reaches base b ix rem p acc.1 r3 h h3) h4

theorem colPass_reaches (base b : Board) (ix : Nat) (res : Board × Bool)
    (h : Reaches base b) (heq : colPass b ix = some res) : Reaches base res.1 :=
  foldlM_reaches base (colPartStep b ix (colRemainder b ix))
    (fun acc p res2 hacc hstep => colPartStep_reaches base b ix _ acc p res2 hacc hstep)
    (colParts b ix) (b, false) res h heq

theorem colsPass_reaches (b : Board) (res : Board × Bool) (heq : colsPass b = some res) :
    Reaches b res.1 := by
  refine foldlM_reaches b
    (fun acc ix => do
      let r ← colPass acc.1 ix
      pure (r.1, acc.2 || r.2))
    ?_ (List.range b.width) (b, false) res (Reaches.refl b) heq
  intro acc ix res2 hacc hstep
  have hstep2 : (do
      let r ← colPass acc.1 ix
      pure (r.1, acc.2 || r.2) : Option (Board × Bool)) = some res2 := hstep
  cases hcol : colPass acc.1 ix with
  | none =>
    rw [hcol] at hstep2
    exact absurd (show (none : Option (Board × Bool)) = some res2 from hstep2) (by simp)
  | some r =>
    rw [hcol] at hstep2
    have hres : res2 = (r.1, acc.2 || r.2) :=
      (Option.some.inj (show some (r.1, acc.2 || r.2) = some res2 from hstep2)).symm
    rw [hres]
    exact colPass_reaches b acc.1 ix r hacc hcol

theorem solveRound_reaches (b : Board) (res : Board × Bool)
    (heq : solveRound b = some res) : Reaches b res.1 := by
  have heq2 : (do
      let r2 ← r2Pass (r1Pass b).1
      let c ← colsPass r2.1
      pure (c.1, (r1Pass b).2 || r2.2 || c.2) : Option (Board × Bool)) = some res := heq
  cases h2 : r2Pass (r1Pass b).1 with
  | none =>
    rw [h2] at heq2
    exact absurd (show (none : Option (Board × Bool)) = some res from heq2) (by simp)
  | some r2 =>
    rw [h2] at heq2
    have heq3 : (do
        let c ← colsPass r2.1
        pure (c.1, (r1Pass b).2 || r2.2 || c.2) : Option (Board × Bool)) = some res := heq2
    cases h3 : colsPass r2.1 with
    | none =>
      rw [h3] at heq3
      exact absurd (show (none : Option (Board × Bool)) = some res from heq3) (by simp)
    | some c =>
      rw [h3] at heq3
      have hres : res = (c.1, (r1Pass b).2 || r2.2 || c.2) :=
        (Option.some.inj
          (show some (c.1, (r1Pass b).2 || r2.2 || c.2) = some res from heq3)).symm
      rw [hres]
      exact reaches_trans _ _ _
        (reaches_trans _ _ _ (r1Pass_reaches b) (r2Pass_reaches (r1Pass b).1 r2 h2))
        (colsPass_reaches r2.1 c h3)

theorem solveGo_reaches (n : Nat) : ∀ (b b2 : Board), solveGo n b = some b2 → Reaches b b2 := by
  induction n with
  | zero => intro b b2 h; cases h
  | succ n ih =>
    intro b b2 h
    unfold solveGo at h
    rcases hsr : solveRound b with _ | ⟨rb, ru⟩
    · rw [hsr] at h; cases h
    · rw [hsr] at h
      cases ru
      · have h2 : some rb = some b2 := h
        cases Option.some.inj h2
        exact solveRound_reaches b (b2, false) hsr
      · have h2 : solveGo n rb = some b2 := h
        exact reaches_trans _ _ _ (solveRound_reaches b (rb, true) hsr) (ih rb b2 h2)
